import Mathlib

/-!
Shallow embedding of the `spam_or_ham` naive Bayes classifier
(`src/nb_classifier.py` and `src/enron.py`).

Strings are modelled as lists of characters.  The kyotocabinet database
backing `ClassifierDB` is modelled as an association list from string keys
to natural-number counters, with `increment` as the store's atomic
increment operation and `prefixKeys` as its `match_prefix` scan (the
scan's key order is implementation-defined in kyotocabinet; the model
yields keys in insertion order).  A Python float is modelled as an exact
rational; a raised `ZeroDivisionError` is modelled by `Option`, `none`
standing for the raised error.
-/

namespace NB

/-- A Python string, modelled as its list of characters. -/
abbrev Str := List Char

/-- The kyotocabinet database contents: an association list from string
keys to natural-number counters (kyoto serializes counters as 8-byte
big-endian unsigned integers; the model keeps the decoded number). -/
abbrev Store := List (Str × ℕ)

/-- Python's `str.startswith` / the prefix test used by kyotocabinet's
`match_prefix`: does `p` occur as a prefix of `k`? -/
def strHasPre : Str → Str → Bool
  | [], _ => true
  | _ :: _, [] => false
  | p :: ps, k :: ks => p == k && strHasPre ps ks

/-- Python's `str.endswith`: does `sfx` occur as a suffix of `s`? -/
def strEndsWith (s sfx : Str) : Bool := strHasPre sfx.reverse s.reverse

/-- `ClassifierDB.get_int`: read the counter stored under a key,
returning 0 when the key is absent. -/
def get_int : Store → Str → ℕ
  | [], _ => 0
  | (k', v) :: rest, k => if k' = k then v else get_int rest k

/-- kyotocabinet `DB.increment(key, 1)` on a writable handle: add 1 to
the counter under `key`, creating it (at 1) when absent. -/
def increment : Store → Str → Store
  | [], k => [(k, 1)]
  | (k', v) :: rest, k => if k' = k then (k', v + 1) :: rest else (k', v) :: increment rest k

/-- kyotocabinet `DB.increment` as seen through an open handle.  On a
handle opened with `OREADER` (read-only), a write operation fails: the
store is unchanged and the call returns a failure value (`None` in the
Python binding — `ClassifierDB` is constructed without `GEXCEPTIONAL`,
so no exception is raised).  On a writable handle it increments and
returns the post-increment value. -/
def incrementM (readOnly : Bool) (db : Store) (k : Str) : Store × Option ℕ :=
  if readOnly then (db, none)
  else ((increment db k), some (get_int (increment db k) k))

/-- The keys of the store, in the store's enumeration order. -/
def storeKeys (db : Store) : List Str := db.map Prod.fst

/-- kyotocabinet `DB.match_prefix`: all keys that start with `p`. -/
def prefixKeys (db : Store) (p : Str) : List Str :=
  (storeKeys db).filter fun k => strHasPre p k

/-- The prefix `'category.%s' % ''`, i.e. `"category."`. -/
def categoryPreStr : Str := "category.".data

/-- The key `'category.%s' % category`. -/
def categoryKey (c : Str) : Str := "category.".data ++ c

/-- The key `'feature2category.%s.%s' % (feature, category)`. -/
def featureCategoryKey (f c : Str) : Str := "feature2category.".data ++ f ++ '.' :: c

/-- The prefix `'feature2category.%s.%s' % (feature, '')`. -/
def featurePreStr (f : Str) : Str := "feature2category.".data ++ f ++ ['.']

/-- The key `'total-count'`. -/
def totalCountKey : Str := "total-count".data

/-- `ClassifierDB.incr_feature_category`: increment the count for the
feature in the given category, returning kyoto's result value. -/
def incr_feature_category (readOnly : Bool) (db : Store) (f c : Str) : Store × Option ℕ :=
  incrementM readOnly db (featureCategoryKey f c)

/-- `ClassifierDB.incr_category`: increment the count for the category,
increasing the total count as well. -/
def incr_category (readOnly : Bool) (db : Store) (c : Str) : Store × Option ℕ :=
  incrementM readOnly (incrementM readOnly db totalCountKey).1 (categoryKey c)

/-- `ClassifierDB.category_count`: number of documents in a category. -/
def category_count (db : Store) (c : Str) : ℕ := get_int db (categoryKey c)

/-- `ClassifierDB.total_count`: total number of documents overall. -/
def total_count (db : Store) : ℕ := get_int db totalCountKey

/-- `ClassifierDB.get_feature_category_count`. -/
def get_feature_category_count (db : Store) (f c : Str) : ℕ :=
  get_int db (featureCategoryKey f c)

/-- `ClassifierDB.get_feature_counts`: total count for the feature
across all categories, summed over a prefix scan. -/
def get_feature_counts (db : Store) (f : Str) : ℕ :=
  ((prefixKeys db (featurePreStr f)).map fun k => get_int db k).sum

/-- `ClassifierDB.iter_categories`: all categories that have been
observed, recovered by stripping the category prefix from scanned keys. -/
def iter_categories (db : Store) : List Str :=
  (prefixKeys db categoryPreStr).map fun k => k.drop categoryPreStr.length

/-- `NBC.train`: for each category, increment each feature's count for
that category (once per occurrence), then increment the category count.
The increments' return values are discarded.  `readOnly` records the
mode the database handle was opened with. -/
def train (readOnly : Bool) (db : Store) (features cats : List Str) : Store :=
  cats.foldl
    (fun d c =>
      (incr_category readOnly
        (features.foldl (fun d2 f => (incr_feature_category readOnly d2 f c).1) d) c).1)
    db

/-- `NBC.train` as a call: Python signals failure by exception, and no
branch of `train` raises — the storage layer's write failures on a
read-only handle are failure return values, which `train` discards. -/
def trainCall (readOnly : Bool) (db : Store) (features cats : List Str) : Except Unit Store :=
  Except.ok (train readOnly db features cats)

/-- The store obtained from the empty store by a sequence of completed
`train` calls (in training mode), each given a feature list and a
category list. -/
def trainedStore (calls : List (List Str × List Str)) : Store :=
  calls.foldl (fun db p => train false db p.1 p.2) []

/-- `NBC.feature_probability`: raw estimate
`FeatureCategoryCount / CategoryDocumentCount`; returns 0 when the
feature count is falsy (zero).  When the feature count is nonzero and
the category count is zero, Python's division raises
`ZeroDivisionError`, modelled as `none`. -/
def feature_probability (db : Store) (f c : Str) : Option ℚ :=
  let fcc := get_feature_category_count db f c
  if fcc ≠ 0 then
    let cc := category_count db c
    if cc = 0 then none
    else some ((fcc : ℚ) / (cc : ℚ))
  else some 0

/-- `NBC.weighted_probability`: smooth the raw estimate toward 1/2,
weighting by the feature's total count across all categories.  A zero
denominator (possible only when `weight + totals = 0`) raises
`ZeroDivisionError`, modelled as `none`. -/
def weighted_probability (db : Store) (f c : Str) (weight : ℚ) : Option ℚ :=
  (feature_probability db f c).bind fun initial_prob =>
    let totals : ℚ := (get_feature_counts db f : ℚ)
    if weight + totals = 0 then none
    else some ((weight * (1 / 2) + totals * initial_prob) / (weight + totals))

/-- The list comprehension in `NBC.document_probability`: the weighted
probability (at the default weight 1.0) of each feature in order. -/
def featureProbs (db : Store) (c : Str) : List Str → Option (List ℚ)
  | [] => some []
  | f :: fs =>
    (weighted_probability db f c 1).bind fun p =>
      (featureProbs db c fs).map fun ps => p :: ps

/-- `NBC.document_probability`: `reduce(operator.mul, probs, 1)` over
the per-feature weighted probabilities. -/
def document_probability (db : Store) (features : List Str) (c : Str) : Option ℚ :=
  (featureProbs db c features).map fun ps => ps.foldl (fun a b => a * b) 1

/-- `NBC.weighted_document_probability`: guard against an empty store,
then multiply the document probability by the category prior. -/
def weighted_document_probability (db : Store) (features : List Str) (c : Str) : Option ℚ :=
  if total_count db = 0 then some 0
  else
    (document_probability db features c).map fun doc_prob =>
      doc_prob * ((category_count db c : ℚ) / (total_count db : ℚ))

/-- The loop in `NBC.classify`: pair every observed category with its
weighted document probability. -/
def classifyScores (db : Store) (features : List Str) : List Str → Option (List (Str × ℚ))
  | [] => some []
  | c :: cs =>
    (weighted_document_probability db features c).bind fun p =>
      (classifyScores db features cs).map fun rest => (c, p) :: rest

/-- The sort order of `NBC.classify`: descending by score (Python's
`sorted(..., key=itemgetter(1), reverse=True)`, a stable sort). -/
def scoreGE (a b : Str × ℚ) : Prop := b.2 ≤ a.2

instance : DecidableRel scoreGE := fun a b => inferInstanceAs (Decidable (b.2 ≤ a.2))

instance : IsTotal (Str × ℚ) scoreGE := ⟨fun a b => Or.symm (le_total a.2 b.2)⟩

instance : IsTrans (Str × ℚ) scoreGE := ⟨fun _ _ _ h1 h2 => le_trans h2 h1⟩

/-- `NBC.classify`: score every observed category, sort descending by
score (stably), and keep the first `limit` entries. -/
def classify (db : Store) (features : List Str) (limit : ℕ) : Option (List (Str × ℚ)) :=
  (classifyScores db features (iter_categories db)).map fun items =>
    (List.insertionSort scoreGE items).take limit

/-- `NBC.classify` at its default `limit=5`. -/
def classifyDefault (db : Store) (features : List Str) : Option (List (Str × ℚ)) :=
  classify db features 5

/-- The state `NBC.__init__` builds: the filename, the mode the handle
was opened with, and the opened store. -/
structure NBC where
  filename : Str
  read_only : Bool
  db : Store
deriving DecidableEq

/-- `NBC.__init__` followed by `connect`: reject filenames without the
`.kct` extension with a `RuntimeError` (modelled as `Except.error`)
before opening anything; otherwise open the store file (`existing`,
`none` when the file does not exist) with `OCREATE`, which creates an
empty store when the file is absent. -/
def NBC.init (filename : Str) (readOnly : Bool) (existing : Option Store) : Except Unit NBC :=
  if strEndsWith filename (".kct".data) = false then Except.error ()
  else Except.ok ⟨filename, readOnly, existing.getD []⟩

/-- `enron.py`'s `s.lower()`, character by character. -/
def pyLower (s : Str) : Str := s.map Char.toLower

/-- Python's `str.split()` with no separator: split on whitespace runs,
discarding empty tokens. -/
def pySplit (s : Str) : List Str :=
  (s.splitOnP fun ch => ch.isWhitespace).filter fun w => !w.isEmpty

/-- `enron.extract_features`: the words of `s.lower().split()` whose
length is strictly between `min_len` and `max_len`. -/
def extract_features (s : Str) (min_len max_len : ℕ) : List Str :=
  (pySplit (pyLower s)).filter fun w =>
    decide (min_len < w.length) && decide (w.length < max_len)

/-- `enron.extract_features` at its default bounds 2 and 20. -/
def extract_features_default (s : Str) : List Str := extract_features s 2 20

/-- Distinctness of the store's keys: an invariant of every store the
classifier builds (kyotocabinet keys are unique by construction). -/
def WFStore (db : Store) : Prop := (storeKeys db).Nodup

/-- `train` in training mode, with the storage plumbing reduced to bare
increments. -/
def trainP (db : Store) (fs cs : List Str) : Store :=
  cs.foldl
    (fun d c =>
      increment
        (increment (fs.foldl (fun d2 f => increment d2 (featureCategoryKey f c)) d) totalCountKey)
        (categoryKey c))
    db

/-- How many times a training-mode `train(fs, cs)` call increments the
key `k`: once per (feature occurrence, category) pair whose composite
key is `k`, once per category for the total-count key, and once per
category occurrence for that category's key. -/
def trainDelta (fs cs : List Str) (k : Str) : ℕ :=
  (cs.map fun c =>
    (fs.map fun f => if k = featureCategoryKey f c then 1 else 0).sum
      + (if k = totalCountKey then 1 else 0)
      + (if k = categoryKey c then 1 else 0)).sum

/-- The sum of the counters under all keys starting with `p`. -/
def prefixSum (db : Store) (p : Str) : ℕ :=
  ((prefixKeys db p).map fun k => get_int db k).sum


/-! ### Store lemmas -/

theorem get_int_increment : ∀ (db : Store) (k j : Str),
    get_int (increment db k) j = get_int db j + if j = k then 1 else 0
  | [], k, j => by
    by_cases h : j = k
    · subst h; simp [increment, get_int]
    · have h' : ¬(k = j) := fun hh => h hh.symm
      simp [increment, get_int, h, h']
  | (k', v) :: tl, k, j => by
    by_cases h1 : k' = k
    · subst h1
      by_cases h2 : k' = j
      · subst h2
        simp [increment, get_int]
      · have h2' : ¬(j = k') := fun hh => h2 hh.symm
        simp [increment, get_int, h2, h2']
    · by_cases h2 : k' = j
      · subst h2
        have h1' : ¬(k = k') := fun hh => h1 hh.symm
        simp [increment, get_int, h1, h1']
      · simp [increment, get_int, h1, h2, get_int_increment tl k j]

theorem storeKeys_increment (db : Store) (k : Str) :
    storeKeys (increment db k) =
      if k ∈ storeKeys db then storeKeys db else storeKeys db ++ [k] := by
  induction db with
  | nil => simp [increment, storeKeys]
  | cons hd tl ih =>
    obtain ⟨k', v⟩ := hd
    by_cases h : k' = k
    · subst h
      simp [increment, storeKeys]
    · have hne : ¬(k = k') := fun e => h e.symm
      have hstep : increment ((k', v) :: tl) k = (k', v) :: increment tl k := by
        simp [increment, h]
      rw [hstep]
      simp only [storeKeys, List.map_cons] at ih ⊢
      rw [ih]
      by_cases hm : k ∈ List.map Prod.fst tl <;> simp [hm, hne]

theorem WFStore_increment {db : Store} (h : WFStore db) (k : Str) :
    WFStore (increment db k) := by
  unfold WFStore at h ⊢
  rw [storeKeys_increment]
  by_cases hm : k ∈ storeKeys db
  · simpa [hm] using h
  · simp [hm, List.nodup_append, h]

theorem get_int_eq_zero_of_not_mem : ∀ {db : Store} {k : Str},
    k ∉ storeKeys db → get_int db k = 0
  | [], _, _ => rfl
  | (k', v) :: tl, k, h => by
    have h1 : ¬(k' = k) := fun e => h (by simp [storeKeys, e])
    have h2 : k ∉ storeKeys tl := fun e => h (by simp [storeKeys]; right; simpa [storeKeys] using e)
    simp [get_int, h1, get_int_eq_zero_of_not_mem h2]

theorem mem_storeKeys_of_get_int_ne_zero {db : Store} {k : Str}
    (h : get_int db k ≠ 0) : k ∈ storeKeys db := by
  by_contra hm
  exact h (get_int_eq_zero_of_not_mem hm)

theorem strHasPre_iff : ∀ (p k : Str), strHasPre p k = true ↔ ∃ t, p ++ t = k
  | [], k => by simp [strHasPre]
  | _ :: _, [] => by simp [strHasPre]
  | a :: as, b :: bs => by
    simp only [strHasPre, Bool.and_eq_true, beq_iff_eq, strHasPre_iff as bs]
    constructor
    · rintro ⟨rfl, t, rfl⟩
      exact ⟨t, rfl⟩
    · rintro ⟨t, ht⟩
      rw [List.cons_append] at ht
      injection ht with h1 h2
      exact ⟨h1, t, h2⟩

/-! ### Key construction lemmas -/

theorem featureCategoryKey_eq (f c : Str) :
    featureCategoryKey f c = featurePreStr f ++ c := by
  simp [featureCategoryKey, featurePreStr]

theorem categoryKey_eq (c : Str) : categoryKey c = categoryPreStr ++ c := rfl

theorem totalCountKey_ne_featureCategoryKey (f c : Str) :
    totalCountKey ≠ featureCategoryKey f c := by
  intro h
  have h1 : totalCountKey.take 1 = (featureCategoryKey f c).take 1 := by rw [h]
  have h2 : totalCountKey.take 1 = ['t'] := rfl
  have h3 : (featureCategoryKey f c).take 1 = ['f'] := rfl
  rw [h2, h3] at h1
  exact absurd h1 (by decide)

theorem totalCountKey_ne_categoryKey (c : Str) : totalCountKey ≠ categoryKey c := by
  intro h
  have h1 : totalCountKey.take 1 = (categoryKey c).take 1 := by rw [h]
  have h2 : totalCountKey.take 1 = ['t'] := rfl
  have h3 : (categoryKey c).take 1 = ['c'] := rfl
  rw [h2, h3] at h1
  exact absurd h1 (by decide)

theorem categoryKey_ne_featureCategoryKey (c f c' : Str) :
    categoryKey c ≠ featureCategoryKey f c' := by
  intro h
  have h1 : (categoryKey c).take 1 = (featureCategoryKey f c').take 1 := by rw [h]
  have h2 : (categoryKey c).take 1 = ['c'] := rfl
  have h3 : (featureCategoryKey f c').take 1 = ['f'] := rfl
  rw [h2, h3] at h1
  exact absurd h1 (by decide)

theorem categoryKey_inj {c c' : Str} (h : categoryKey c = categoryKey c') : c = c' :=
  List.append_cancel_left h

theorem categoryPre_not_pre_featureCategoryKey (f c : Str) :
    strHasPre categoryPreStr (featureCategoryKey f c) = false := rfl

theorem categoryPre_not_pre_totalCountKey :
    strHasPre categoryPreStr totalCountKey = false := rfl

theorem categoryPre_pre_categoryKey (c : Str) :
    strHasPre categoryPreStr (categoryKey c) = true := rfl

/-! ### Splitting composite keys at the `.` delimiter -/

theorem dotSplit_left : ∀ (a b x y : Str), ('.' : Char) ∉ a → ('.' : Char) ∉ b →
    a ++ '.' :: x = b ++ '.' :: y → a = b ∧ x = y
  | [], b, x, y => fun _ hb h => by
    cases b with
    | nil => simpa using h
    | cons bh bt =>
      exfalso
      rw [List.nil_append, List.cons_append] at h
      injection h with h1 h2
      exact hb (by rw [← h1]; exact List.mem_cons_self _ _)
  | a :: as, b, x, y => fun ha hb h => by
    cases b with
    | nil =>
      exfalso
      rw [List.cons_append, List.nil_append] at h
      injection h with h1 h2
      exact ha (by rw [h1]; exact List.mem_cons_self _ _)
    | cons bh bt =>
      rw [List.cons_append, List.cons_append] at h
      injection h with h1 h2
      have ha' : ('.' : Char) ∉ as := fun hm => ha (List.mem_cons_of_mem _ hm)
      have hb' : ('.' : Char) ∉ bt := fun hm => hb (List.mem_cons_of_mem _ hm)
      obtain ⟨rfl, rfl⟩ := dotSplit_left as bt x y ha' hb' h2
      exact ⟨by rw [h1], rfl⟩

theorem dotSplit_right : ∀ (a b x y : Str), ('.' : Char) ∉ x → ('.' : Char) ∉ y →
    a ++ '.' :: x = b ++ '.' :: y → a = b ∧ x = y
  | [], [], x, y => fun _ _ h => by simpa using h
  | [], bh :: bt, x, y => fun hx _ h => by
    exfalso
    rw [List.nil_append, List.cons_append] at h
    injection h with h1 h2
    exact hx (by rw [h2]; exact List.mem_append_right _ (List.mem_cons_self _ _))
  | ah :: as, [], x, y => fun _ hy h => by
    exfalso
    rw [List.cons_append, List.nil_append] at h
    injection h with h1 h2
    exact hy (by rw [← h2]; exact List.mem_append_right _ (List.mem_cons_self _ _))
  | ah :: as, bh :: bt, x, y => fun hx hy h => by
    rw [List.cons_append, List.cons_append] at h
    injection h with h1 h2
    obtain ⟨rfl, rfl⟩ := dotSplit_right as bt x y hx hy h2
    exact ⟨by rw [h1], rfl⟩

theorem featureCategoryKey_inj_left {f f' c c' : Str}
    (hf : ('.' : Char) ∉ f) (hf' : ('.' : Char) ∉ f')
    (h : featureCategoryKey f c = featureCategoryKey f' c') : f = f' ∧ c = c' := by
  have h3 := h
  simp only [featureCategoryKey, List.append_assoc] at h3
  exact dotSplit_left f f' c c' hf hf' (List.append_cancel_left h3)

theorem featureCategoryKey_inj_right {f f' c c' : Str}
    (hc : ('.' : Char) ∉ c) (hc' : ('.' : Char) ∉ c')
    (h : featureCategoryKey f c = featureCategoryKey f' c') : f = f' ∧ c = c' := by
  have h3 := h
  simp only [featureCategoryKey, List.append_assoc] at h3
  exact dotSplit_right f f' c c' hc hc' (List.append_cancel_left h3)

/-! ### Training-mode reduction -/

theorem incrementM_false (db : Store) (k : Str) :
    incrementM false db k = (increment db k, some (get_int (increment db k) k)) := rfl

theorem incrementM_true (db : Store) (k : Str) : incrementM true db k = (db, none) := rfl

theorem train_false_eq (db : Store) (fs cs : List Str) :
    train false db fs cs = trainP db fs cs := by
  simp [train, trainP, incr_feature_category, incr_category, incrementM_false]

theorem foldl_keep {α β : Type} (l : List α) (b : β) :
    l.foldl (fun acc _ => acc) b = b := by
  induction l generalizing b with
  | nil => rfl
  | cons a l ih => simp [ih]

theorem train_true_eq (db : Store) (fs cs : List Str) : train true db fs cs = db := by
  simp [train, incr_feature_category, incr_category, incrementM_true, foldl_keep]

/-! ### The effect of one `train` call on each key -/

theorem get_int_featFold (c k : Str) : ∀ (fs : List Str) (db : Store),
    get_int (fs.foldl (fun d f => increment d (featureCategoryKey f c)) db) k
      = get_int db k + (fs.map fun f => if k = featureCategoryKey f c then 1 else 0).sum
  | [], db => by simp
  | f :: fs, db => by
    simp only [List.foldl_cons, List.map_cons, List.sum_cons]
    rw [get_int_featFold c k fs, get_int_increment]
    omega

theorem get_int_trainP (k : Str) : ∀ (cs fs : List Str) (db : Store),
    get_int (trainP db fs cs) k = get_int db k + trainDelta fs cs k
  | [], fs, db => by simp [trainP, trainDelta]
  | c :: cs, fs, db => by
    have hstep : trainP db fs (c :: cs)
        = trainP
            (increment
              (increment (fs.foldl (fun d2 f => increment d2 (featureCategoryKey f c)) db)
                totalCountKey)
              (categoryKey c)) fs cs := by
      simp [trainP]
    rw [hstep, get_int_trainP k cs fs]
    rw [get_int_increment, get_int_increment, get_int_featFold]
    simp only [trainDelta, List.map_cons, List.sum_cons]
    omega

theorem get_int_train (db : Store) (fs cs : List Str) (k : Str) :
    get_int (train false db fs cs) k = get_int db k + trainDelta fs cs k := by
  rw [train_false_eq]
  exact get_int_trainP k cs fs db

theorem get_int_foldl_train (k : Str) : ∀ (calls : List (List Str × List Str)) (db : Store),
    get_int (calls.foldl (fun d p => train false d p.1 p.2) db) k
      = get_int db k + (calls.map fun p => trainDelta p.1 p.2 k).sum
  | [], db => by simp
  | p :: calls, db => by
    simp only [List.foldl_cons, List.map_cons, List.sum_cons]
    rw [get_int_foldl_train k calls, get_int_train]
    omega

theorem get_int_trainedStore (calls : List (List Str × List Str)) (k : Str) :
    get_int (trainedStore calls) k = (calls.map fun p => trainDelta p.1 p.2 k).sum := by
  have h := get_int_foldl_train k calls []
  simpa [trainedStore, get_int] using h

/-! ### Arithmetic helpers -/

theorem sum_map_one {α : Type} (l : List α) : (l.map fun _ => (1 : ℕ)).sum = l.length := by
  induction l with
  | nil => rfl
  | cons a l ih =>
    simp only [List.map_cons, List.sum_cons, ih, List.length_cons]
    omega

theorem sum_map_ite_eq_count (l : List Str) (x : Str) :
    (l.map fun a => if a = x then 1 else 0).sum = l.count x := by
  induction l with
  | nil => simp
  | cons a l ih =>
    simp only [List.map_cons, List.sum_cons, ih, List.count_cons]
    by_cases h : a = x
    · subst h
      simp only [if_pos rfl, beq_self_eq_true, if_true]
      omega
    · have h2 : (x == a) = false := beq_eq_false_iff_ne.mpr fun e => h e.symm
      simp [h, h2]

theorem sum_map_ite_count (cs : List Str) (c : Str) (m : ℕ) :
    (cs.map fun c' => if c = c' then m else 0).sum = m * cs.count c := by
  induction cs with
  | nil => simp
  | cons a cs ih =>
    simp only [List.map_cons, List.sum_cons, ih, List.count_cons]
    by_cases h : c = a
    · subst h
      simp only [if_pos rfl, beq_self_eq_true, if_true]
      ring
    · have h2 : (c == a) = false := beq_eq_false_iff_ne.mpr h
      simp [h, h2]
      exact Or.inl fun e => h e.symm

theorem nat_sum_eq_zero_iff (l : List ℕ) : l.sum = 0 ↔ ∀ x ∈ l, x = 0 := by
  induction l with
  | nil => simp
  | cons a l ih =>
    simp only [List.sum_cons, List.mem_cons]
    constructor
    · intro h
      have ha : a = 0 := by omega
      have hl : l.sum = 0 := by omega
      intro x hx
      rcases hx with rfl | hx
      · exact ha
      · exact ih.mp hl x hx
    · intro h
      have ha : a = 0 := h a (Or.inl rfl)
      have hl : l.sum = 0 := ih.mpr fun x hx => h x (Or.inr hx)
      omega

theorem le_sum_map_of_mem {l : List Str} (g : Str → ℕ) {k : Str} (h : k ∈ l) :
    g k ≤ (l.map g).sum := by
  induction l with
  | nil => cases h
  | cons a l ih =>
    rcases List.mem_cons.mp h with rfl | hm
    · simp only [List.map_cons, List.sum_cons]
      omega
    · have := ih hm
      simp only [List.map_cons, List.sum_cons]
      omega

/-! ### `trainDelta` at the three kinds of keys -/

theorem trainDelta_total (fs cs : List Str) : trainDelta fs cs totalCountKey = cs.length := by
  unfold trainDelta
  have hmap : (cs.map fun c =>
      (fs.map fun f => if totalCountKey = featureCategoryKey f c then 1 else 0).sum
        + (if totalCountKey = totalCountKey then 1 else 0)
        + (if totalCountKey = categoryKey c then 1 else 0)) = cs.map fun _ => (1 : ℕ) := by
    apply List.map_congr_left
    intro c _
    have h1 : (fs.map fun f => if totalCountKey = featureCategoryKey f c then 1 else 0).sum = 0 := by
      induction fs with
      | nil => rfl
      | cons f fs ihf => simp [totalCountKey_ne_featureCategoryKey f c, ihf]
    simp [h1, totalCountKey_ne_categoryKey c]
  rw [hmap, sum_map_one]

theorem trainDelta_category (fs cs : List Str) (c : Str) :
    trainDelta fs cs (categoryKey c) = cs.count c := by
  unfold trainDelta
  have hmap : (cs.map fun c' =>
      (fs.map fun f => if categoryKey c = featureCategoryKey f c' then 1 else 0).sum
        + (if categoryKey c = totalCountKey then 1 else 0)
        + (if categoryKey c = categoryKey c' then 1 else 0))
      = cs.map fun c' => if c = c' then 1 else 0 := by
    apply List.map_congr_left
    intro c' _
    have h1 : (fs.map fun f => if categoryKey c = featureCategoryKey f c' then 1 else 0).sum = 0 := by
      induction fs with
      | nil => rfl
      | cons f fs ihf => simp [categoryKey_ne_featureCategoryKey c f c', ihf]
    have h2 : categoryKey c ≠ totalCountKey := fun e => totalCountKey_ne_categoryKey c e.symm
    have h3 : (categoryKey c = categoryKey c') ↔ (c = c') :=
      ⟨categoryKey_inj, fun e => by rw [e]⟩
    simp [h1, h2, h3]
  rw [hmap, sum_map_ite_count, one_mul]

theorem trainDelta_fck_noDot (fs cs : List Str) (f c : Str)
    (hf : ('.' : Char) ∉ f) (hfs : ∀ f' ∈ fs, ('.' : Char) ∉ f') :
    trainDelta fs cs (featureCategoryKey f c) = fs.count f * cs.count c := by
  unfold trainDelta
  have hmap : (cs.map fun c' =>
      (fs.map fun f' => if featureCategoryKey f c = featureCategoryKey f' c' then 1 else 0).sum
        + (if featureCategoryKey f c = totalCountKey then 1 else 0)
        + (if featureCategoryKey f c = categoryKey c' then 1 else 0))
      = cs.map fun c' => if c = c' then fs.count f else 0 := by
    apply List.map_congr_left
    intro c' _
    have h2 : featureCategoryKey f c ≠ totalCountKey :=
      fun e => totalCountKey_ne_featureCategoryKey f c e.symm
    have h3 : featureCategoryKey f c ≠ categoryKey c' :=
      fun e => categoryKey_ne_featureCategoryKey c' f c e.symm
    by_cases hc : c = c'
    · subst hc
      have hpt : (fs.map fun f' => if featureCategoryKey f c = featureCategoryKey f' c then 1 else 0)
          = fs.map fun f' => if f' = f then 1 else 0 := by
        apply List.map_congr_left
        intro f' hf'
        have hiff : (featureCategoryKey f c = featureCategoryKey f' c) ↔ (f' = f) := by
          constructor
          · intro e
            exact ((featureCategoryKey_inj_left hf (hfs f' hf') e).1).symm
          · intro e
            rw [e]
        simp [hiff]
      rw [hpt, sum_map_ite_eq_count]
      simp [h2, h3]
    · have hsum : (fs.map fun f' =>
          if featureCategoryKey f c = featureCategoryKey f' c' then 1 else 0).sum = 0 := by
        rw [nat_sum_eq_zero_iff]
        intro x hx
        simp only [List.mem_map] at hx
        obtain ⟨f', hf', rfl⟩ := hx
        have hne : ¬(featureCategoryKey f c = featureCategoryKey f' c') := by
          intro e
          exact hc (featureCategoryKey_inj_left hf (hfs f' hf') e).2
        simp [hne]
      simp [hsum, h2, h3, hc]
  rw [hmap, sum_map_ite_count]

/-! ### Prefix-scan sums -/

theorem get_feature_counts_eq (db : Store) (f : Str) :
    get_feature_counts db f = prefixSum db (featurePreStr f) := rfl

theorem sum_map_add_ite (l : List Str) (g : Str → ℕ) (k : Str) :
    (l.map fun j => g j + if j = k then 1 else 0).sum = (l.map g).sum + l.count k := by
  induction l with
  | nil => simp
  | cons a l ih =>
    simp only [List.map_cons, List.sum_cons, ih, List.count_cons]
    by_cases h : a = k
    · subst h
      simp only [if_pos rfl, beq_self_eq_true, if_true]
      omega
    · have h2 : (a == k) = false := beq_eq_false_iff_ne.mpr h
      simp only [if_neg h, h2, Bool.false_eq_true, if_false]
      omega

theorem sum_map_get_int_increment (l : List Str) (db : Store) (k : Str) :
    (l.map fun j => get_int (increment db k) j).sum
      = (l.map fun j => get_int db j).sum + l.count k := by
  have h : (l.map fun j => get_int (increment db k) j)
      = l.map fun j => get_int db j + if j = k then 1 else 0 := by
    apply List.map_congr_left
    intro j _
    exact get_int_increment db k j
  rw [h, sum_map_add_ite]

theorem count_eq_zero_of_not_mem' {l : List Str} {k : Str} (h : k ∉ l) : l.count k = 0 := by
  induction l with
  | nil => rfl
  | cons a l ih =>
    have h1 : ¬(a = k) := fun e => h (by rw [e]; exact List.mem_cons_self _ _)
    have h2 : (a == k) = false := beq_eq_false_iff_ne.mpr h1
    have h3 : k ∉ l := fun e => h (List.mem_cons_of_mem _ e)
    simp [List.count_cons, h2, ih h3]

theorem count_eq_one_of_nodup_mem {l : List Str} {k : Str} (hn : l.Nodup) (hm : k ∈ l) :
    l.count k = 1 := by
  induction l with
  | nil => cases hm
  | cons a l ih =>
    rcases List.mem_cons.mp hm with rfl | hm2
    · have ha : k ∉ l := (List.nodup_cons.mp hn).1
      simp [List.count_cons, count_eq_zero_of_not_mem' ha]
    · have h1 : ¬(a = k) := by
        intro e
        exact (List.nodup_cons.mp hn).1 (e ▸ hm2)
      have h2 : (a == k) = false := beq_eq_false_iff_ne.mpr h1
      simp [List.count_cons, h2, ih (List.nodup_cons.mp hn).2 hm2]

theorem prefixSum_increment {db : Store} (hWF : WFStore db) (k p : Str) :
    prefixSum (increment db k) p
      = prefixSum db p + if strHasPre p k = true then 1 else 0 := by
  unfold prefixSum prefixKeys
  rw [storeKeys_increment]
  by_cases hm : k ∈ storeKeys db
  · rw [if_pos hm, sum_map_get_int_increment]
    have hcount : ((storeKeys db).filter fun j => strHasPre p j).count k
        = if strHasPre p k = true then 1 else 0 := by
      by_cases hp : strHasPre p k = true
      · rw [if_pos hp]
        exact count_eq_one_of_nodup_mem (List.Nodup.filter _ hWF)
          (List.mem_filter.mpr ⟨hm, hp⟩)
      · rw [if_neg hp]
        apply count_eq_zero_of_not_mem'
        intro hmem
        exact hp (List.mem_filter.mp hmem).2
    rw [hcount]
  · rw [if_neg hm, List.filter_append]
    have hmain : ((storeKeys db).filter fun j => strHasPre p j).map
          (fun j => get_int (increment db k) j)
        = ((storeKeys db).filter fun j => strHasPre p j).map fun j => get_int db j := by
      apply List.map_congr_left
      intro j hj
      have hjk : ¬(j = k) := fun e => hm (e ▸ (List.mem_filter.mp hj).1)
      rw [get_int_increment]
      simp [hjk]
    by_cases hp : strHasPre p k = true
    · have hfk : List.filter (fun j => strHasPre p j) [k] = [k] := by simp [hp]
      rw [hfk, if_pos hp, List.map_append, List.sum_append, hmain]
      have hk0 : get_int db k = 0 := get_int_eq_zero_of_not_mem hm
      have hk1 : get_int (increment db k) k = 1 := by
        rw [get_int_increment]
        simp [hk0]
      simp [hk1]
    · have hfk : List.filter (fun j => strHasPre p j) [k] = [] := by simp [hp]
      rw [hfk, if_neg hp, List.append_nil, hmain]
      simp

/-! ### Well-formedness and the category sum along training -/

theorem trainP_cons (db : Store) (fs : List Str) (c : Str) (cs : List Str) :
    trainP db fs (c :: cs)
      = trainP
          (increment
            (increment (fs.foldl (fun d2 f => increment d2 (featureCategoryKey f c)) db)
              totalCountKey)
            (categoryKey c)) fs cs := by
  simp [trainP]

theorem WFStore_featFold (c : Str) : ∀ (fs : List Str) {db : Store}, WFStore db →
    WFStore (fs.foldl (fun d f => increment d (featureCategoryKey f c)) db)
  | [], _, h => h
  | f :: fs, db, h => by
    simp only [List.foldl_cons]
    exact WFStore_featFold c fs (WFStore_increment h _)

theorem prefixSum_featFold_cat (c : Str) : ∀ (fs : List Str) {db : Store}, WFStore db →
    prefixSum (fs.foldl (fun d f => increment d (featureCategoryKey f c)) db) categoryPreStr
      = prefixSum db categoryPreStr
  | [], _, _ => rfl
  | f :: fs, db, h => by
    simp only [List.foldl_cons]
    rw [prefixSum_featFold_cat c fs (WFStore_increment h _), prefixSum_increment h]
    simp [categoryPre_not_pre_featureCategoryKey]

theorem WFStore_trainP : ∀ (cs fs : List Str) {db : Store}, WFStore db →
    WFStore (trainP db fs cs)
  | [], _, _, h => h
  | c :: cs, fs, db, h => by
    rw [trainP_cons]
    exact WFStore_trainP cs fs
      (WFStore_increment (WFStore_increment (WFStore_featFold c fs h) _) _)

theorem prefixSum_trainP_cat : ∀ (cs fs : List Str) {db : Store}, WFStore db →
    prefixSum (trainP db fs cs) categoryPreStr = prefixSum db categoryPreStr + cs.length
  | [], fs, db, h => by simp [trainP]
  | c :: cs, fs, db, h => by
    rw [trainP_cons]
    have h1 := WFStore_featFold c fs h
    have h2 := WFStore_increment h1 totalCountKey
    rw [prefixSum_trainP_cat cs fs (WFStore_increment h2 (categoryKey c))]
    rw [prefixSum_increment h2, prefixSum_increment h1, prefixSum_featFold_cat c fs h]
    simp only [categoryPre_not_pre_totalCountKey, categoryPre_pre_categoryKey,
      List.length_cons]
    simp
    omega

theorem WFStore_foldl_train : ∀ (calls : List (List Str × List Str)) {db : Store},
    WFStore db → WFStore (calls.foldl (fun d p => train false d p.1 p.2) db)
  | [], _, h => h
  | p :: calls, db, h => by
    simp only [List.foldl_cons]
    apply WFStore_foldl_train calls
    rw [train_false_eq]
    exact WFStore_trainP p.2 p.1 h

theorem WFStore_trainedStore (calls : List (List Str × List Str)) :
    WFStore (trainedStore calls) :=
  WFStore_foldl_train calls (by simp [WFStore, storeKeys])

theorem prefixSum_foldl_train_cat : ∀ (calls : List (List Str × List Str)) {db : Store},
    WFStore db →
    prefixSum (calls.foldl (fun d p => train false d p.1 p.2) db) categoryPreStr
      = prefixSum db categoryPreStr + (calls.map fun p => p.2.length).sum
  | [], _, _ => by simp
  | p :: calls, db, h => by
    simp only [List.foldl_cons, List.map_cons, List.sum_cons]
    have h1 : WFStore (train false db p.1 p.2) := by
      rw [train_false_eq]
      exact WFStore_trainP p.2 p.1 h
    rw [prefixSum_foldl_train_cat calls h1, train_false_eq, prefixSum_trainP_cat p.2 p.1 h]
    omega

theorem prefixSum_trainedStore_cat (calls : List (List Str × List Str)) :
    prefixSum (trainedStore calls) categoryPreStr = (calls.map fun p => p.2.length).sum := by
  have h := @prefixSum_foldl_train_cat calls [] (by simp [WFStore, storeKeys])
  simpa [trainedStore, prefixSum, prefixKeys, storeKeys] using h

theorem drop_len_append (a b : Str) : (a ++ b).drop a.length = b := by
  induction a with
  | nil => simp
  | cons x a ih => simp [ih]

theorem sum_iter_categories (db : Store) :
    ((iter_categories db).map fun c => category_count db c).sum
      = prefixSum db categoryPreStr := by
  unfold iter_categories prefixSum
  rw [List.map_map]
  apply congrArg List.sum
  apply List.map_congr_left
  intro k hk
  have hk' := hk
  simp only [prefixKeys, List.mem_filter] at hk'
  obtain ⟨t, rfl⟩ := (strHasPre_iff _ _).mp hk'.2
  simp only [Function.comp]
  rw [drop_len_append]
  rfl

/-! ### Closed forms over a trained store -/

theorem total_count_trainedStore (calls : List (List Str × List Str)) :
    total_count (trainedStore calls) = (calls.map fun p => p.2.length).sum := by
  unfold total_count
  rw [get_int_trainedStore]
  have h : (calls.map fun p => trainDelta p.1 p.2 totalCountKey)
      = calls.map fun p => p.2.length := by
    apply List.map_congr_left
    intro p _
    exact trainDelta_total p.1 p.2
  rw [h]

theorem category_count_trainedStore (calls : List (List Str × List Str)) (c : Str) :
    category_count (trainedStore calls) c = (calls.map fun p => p.2.count c).sum := by
  unfold category_count
  rw [get_int_trainedStore]
  have h : (calls.map fun p => trainDelta p.1 p.2 (categoryKey c))
      = calls.map fun p => p.2.count c := by
    apply List.map_congr_left
    intro p _
    exact trainDelta_category p.1 p.2 c
  rw [h]

/-! ### Claim theorems -/

/-- Claim C10: constructing the classifier on a filename that does not end in
`.kct` raises a `RuntimeError` before any store is opened; a filename ending
in `.kct` passes the check and the store is opened, created empty when the
file is absent. -/
theorem nbc_init_spec :
    (∀ (fn : Str) (ro : Bool) (ex : Option Store),
      strEndsWith fn (".kct".data) = false → NBC.init fn ro ex = Except.error ()) ∧
    (∀ (fn : Str) (ex : Option Store), strEndsWith fn (".kct".data) = true →
      NBC.init fn false ex = Except.ok ⟨fn, false, ex.getD []⟩) ∧
    (∀ fn : Str, strEndsWith fn (".kct".data) = true →
      NBC.init fn false none = Except.ok ⟨fn, false, []⟩) := by
  refine ⟨?_, ?_, ?_⟩
  · intro fn ro ex h
    simp [NBC.init, h]
  · intro fn ex h
    simp [NBC.init, h]
  · intro fn h
    simp [NBC.init, h]

/-- Witness for C10: the check rejects `enron.txt` without touching the store
and accepts `enron.kct`, opening a fresh empty store. -/
theorem nbc_init_spec_witness :
    NBC.init ("enron.txt".data) false (some [(totalCountKey, 3)]) = Except.error ()
      ∧ NBC.init ("enron.kct".data) false none
          = Except.ok ⟨("enron.kct".data), false, []⟩ :=
  ⟨nbc_init_spec.1 ("enron.txt".data) false (some [(totalCountKey, 3)]) (by decide),
   nbc_init_spec.2.2 ("enron.kct".data) (by decide)⟩

/-- Claim C9: extractFeatures splits the lower-cased input on whitespace and
returns exactly the tokens whose length is strictly between the bounds
(default 2 and 20), in input order; tokens of length exactly 2 or 20 are
excluded. -/
theorem extract_features_spec :
    (∀ s : Str, extract_features_default s = extract_features s 2 20) ∧
    (∀ s : Str, (extract_features s 2 20).Sublist (pySplit (pyLower s))) ∧
    (∀ (s w : Str), w ∈ extract_features s 2 20 ↔
      (w ∈ pySplit (pyLower s) ∧ 2 < w.length ∧ w.length < 20)) ∧
    (∀ (s w : Str), w ∈ pySplit (pyLower s) → (w.length = 2 ∨ w.length = 20) →
      w ∉ extract_features s 2 20) ∧
    extract_features ("ABC de fghij".data) 2 20 = [("abc".data), ("fghij".data)] := by
  have hiff : ∀ (s w : Str), w ∈ extract_features s 2 20 ↔
      (w ∈ pySplit (pyLower s) ∧ 2 < w.length ∧ w.length < 20) := by
    intro s w
    simp only [extract_features, List.mem_filter, Bool.and_eq_true, decide_eq_true_eq]
  refine ⟨fun s => rfl, fun s => List.filter_sublist _, hiff, ?_, by decide⟩
  intro s w hw hlen hmem
  have h := (hiff s w).mp hmem
  rcases hlen with h2 | h2 <;> omega

/-- Witness for C9: the token `de` of the split (length exactly 2) is
excluded from the extracted features. -/
theorem extract_features_spec_witness :
    ("de".data) ∉ extract_features ("ABC de fghij".data) 2 20 :=
  extract_features_spec.2.2.2.1 ("ABC de fghij".data) ("de".data) (by decide)
    (Or.inl (by decide))

/-- Claim C8 counterexample: on a classifier opened read-only, a concrete
`train` call does not fail with any error — it completes normally, returning
`None` in Python, with every storage increment having failed silently — so
the store is unchanged but no `ReadOnlyViolation` is surfaced. -/
theorem train_read_only_cex :
    trainCall true [(totalCountKey, 7)] [("cheap".data)] [("spam".data)]
      = Except.ok [(totalCountKey, 7)] := by
  simp [trainCall, train_true_eq]

/-- Claim C8 amended: for every classifier opened in ClassifyOnlyMode
(read_only=True), every call to train leaves the store unchanged, but no
error is raised: kyotocabinet's write failures on the reader handle are
returned as failure values (not exceptions, since `GEXCEPTIONAL` is not
set), and `train` discards them. -/
theorem train_read_only_noop :
    ∀ (db : Store) (features cats : List Str),
      trainCall true db features cats = Except.ok db := by
  intro db features cats
  simp [trainCall, train_true_eq]

/-- Claim C6: weightedDocumentProbability multiplies documentProbability by
the category prior CategoryDocumentCount/TotalDocumentCount, and returns
exactly 0 whenever TotalDocumentCount is 0, as a guard rather than an
error. -/
theorem weighted_document_probability_spec :
    (∀ (db : Store) (features : List Str) (c : Str), total_count db = 0 →
      weighted_document_probability db features c = some 0) ∧
    (∀ (db : Store) (features : List Str) (c : Str) (d : ℚ), total_count db ≠ 0 →
      document_probability db features c = some d →
      weighted_document_probability db features c
        = some (d * ((category_count db c : ℚ) / (total_count db : ℚ)))) := by
  constructor
  · intro db features c h
    simp [weighted_document_probability, h]
  · intro db features c d h hd
    simp [weighted_document_probability, h, hd]

/-- Witness for C6: on the empty store the guard yields 0; after one training
call the prior is applied. -/
theorem weighted_document_probability_spec_witness :
    weighted_document_probability [] [] ("spam".data) = some 0
      ∧ weighted_document_probability (train false [] [] [("spam".data)]) [] ("spam".data)
          = some ((1 : ℚ)
              * ((category_count (train false [] [] [("spam".data)]) ("spam".data) : ℚ)
                / (total_count (train false [] [] [("spam".data)]) : ℚ))) :=
  ⟨weighted_document_probability_spec.1 [] [] ("spam".data) (by decide),
   weighted_document_probability_spec.2 (train false [] [] [("spam".data)]) [] ("spam".data) 1
     (by decide) (by decide)⟩

/-- Claim C5: documentProbability is the product of the per-feature weighted
probabilities in input order (one factor per occurrence, no deduplication),
starting from the multiplicative identity 1; the empty feature sequence
yields 1. -/
theorem document_probability_spec :
    (∀ (db : Store) (c : Str), document_probability db [] c = some 1) ∧
    (∀ (db : Store) (c : Str) (features : List Str) (v : Str → ℚ),
      (∀ f ∈ features, weighted_probability db f c 1 = some (v f)) →
      document_probability db features c = some ((features.map v).prod)) := by
  constructor
  · intro db c
    rfl
  · intro db c features v h
    have hfp : ∀ (fs : List Str), (∀ f ∈ fs, weighted_probability db f c 1 = some (v f)) →
        featureProbs db c fs = some (fs.map v) := by
      intro fs
      induction fs with
      | nil => intro _; rfl
      | cons f fs ih =>
        intro hh
        have h1 : weighted_probability db f c 1 = some (v f) := hh f (List.mem_cons_self _ _)
        have h2 : featureProbs db c fs = some (fs.map v) :=
          ih fun g hg => hh g (List.mem_cons_of_mem _ hg)
        simp [featureProbs, h1, h2]
    rw [document_probability, hfp features h]
    simp only [Option.map_some']
    rw [List.prod_eq_foldl]

/-- Witness for C5: on the empty store every weighted probability is 1/2, and
a one-feature document multiplies a single 1/2 factor. -/
theorem document_probability_spec_witness :
    document_probability [] [("cheap".data)] ("spam".data)
      = some (([("cheap".data)].map fun _ => (1 : ℚ) / 2).prod) := by
  have hwp : weighted_probability [] ("cheap".data) ("spam".data) 1 = some ((1 : ℚ) / 2) := by
    have h1 : get_feature_category_count [] ("cheap".data) ("spam".data) = 0 := rfl
    have h2 : get_feature_counts [] ("cheap".data) = 0 := rfl
    norm_num [weighted_probability, feature_probability, h1, h2]
  exact document_probability_spec.2 [] ("spam".data) [("cheap".data)] (fun _ => (1 : ℚ) / 2)
    (by
      intro f hf
      simp only [List.mem_singleton] at hf
      subst hf
      exact hwp)

/-- Claim C2 counterexample: training the dotted feature `a.b` under category
`c` increments the key `feature2category.a.b.c`, which is also the composite
key of the pair (`a`, `b.c`); the claim as stated requires that counter to
stay 0 (the feature `a` occurs zero times in the features list), but it
becomes 1. -/
theorem train_counts_cex :
    ([("a.b".data)].count ("a".data) = 0)
      ∧ get_feature_category_count (train false [] [("a.b".data)] [("c".data)])
          ("a".data) ("b.c".data) = 1 := by
  decide

/-- Claim C2 amended: for every non-empty category sequence, train increments
CategoryDocumentCount(c) once per occurrence of c among the categories and
TotalDocumentCount once per category — including when the feature sequence is
empty — and, provided the features involved do not contain the `.` key
delimiter (string-built keys collide otherwise), FeatureCategoryCount(f, c)
grows by (occurrences of f in features) × (occurrences of c in categories);
train returns nothing beyond the updated store. -/
theorem train_counts (db : Store) (features cats : List Str) (_hne : cats ≠ []) :
    (∀ c, category_count (train false db features cats) c
        = category_count db c + cats.count c) ∧
    (total_count (train false db features cats) = total_count db + cats.length) ∧
    (∀ f c, ('.' : Char) ∉ f → (∀ f' ∈ features, ('.' : Char) ∉ f') →
      get_feature_category_count (train false db features cats) f c
        = get_feature_category_count db f c + features.count f * cats.count c) := by
  refine ⟨?_, ?_, ?_⟩
  · intro c
    unfold category_count
    rw [get_int_train, trainDelta_category]
  · unfold total_count
    rw [get_int_train, trainDelta_total]
  · intro f c hf hfs
    unfold get_feature_category_count
    rw [get_int_train, trainDelta_fck_noDot features cats f c hf hfs]

/-- Witness for C2: one training call on the empty store bumps the category
count and the feature-category count by one each. -/
theorem train_counts_witness :
    (category_count (train false [] [("cheap".data)] [("spam".data)]) ("spam".data)
        = category_count ([] : Store) ("spam".data) + [("spam".data)].count ("spam".data))
      ∧ get_feature_category_count (train false [] [("cheap".data)] [("spam".data)])
          ("cheap".data) ("spam".data)
        = get_feature_category_count ([] : Store) ("cheap".data) ("spam".data)
            + [("cheap".data)].count ("cheap".data) * [("spam".data)].count ("spam".data) := by
  have h := train_counts ([] : Store) [("cheap".data)] [("spam".data)] (by decide)
  exact ⟨h.1 ("spam".data), h.2.2 ("cheap".data) ("spam".data) (by decide) (by decide)⟩

/-- Claim C7: starting from an empty store, after every sequence of completed
train calls, TotalDocumentCount equals the sum over all known categories of
CategoryDocumentCount, and equals the total number of (call, category) pairs
trained (one document per category argument per call). -/
theorem train_total_invariant (calls : List (List Str × List Str)) :
    total_count (trainedStore calls)
        = ((iter_categories (trainedStore calls)).map
            fun c => category_count (trainedStore calls) c).sum
      ∧ total_count (trainedStore calls) = (calls.map fun p => p.2.length).sum := by
  constructor
  · rw [total_count_trainedStore, sum_iter_categories, prefixSum_trainedStore_cat]
  · exact total_count_trainedStore calls

/-- Claim C3: weightedProbability equals
(weight*0.5 + totals*initial)/(weight + totals) with initial the raw feature
probability and totals the feature's prefix-scanned total count; a feature
with total count 0 yields exactly 0.5 at the default weight 1.0. -/
theorem weighted_probability_spec :
    (∀ (db : Store) (f c : Str) (weight initial : ℚ),
      feature_probability db f c = some initial →
      weight + (get_feature_counts db f : ℚ) ≠ 0 →
      weighted_probability db f c weight
        = some ((weight * (1 / 2) + (get_feature_counts db f : ℚ) * initial)
            / (weight + (get_feature_counts db f : ℚ)))) ∧
    (∀ (db : Store) (f c : Str), get_feature_counts db f = 0 →
      weighted_probability db f c 1 = some (1 / 2)) := by
  constructor
  · intro db f c weight initial hfp hne
    simp [weighted_probability, hfp, hne]
  · intro db f c h0
    have hfcc : get_feature_category_count db f c = 0 := by
      by_contra hne
      have hmem : featureCategoryKey f c ∈ storeKeys db :=
        mem_storeKeys_of_get_int_ne_zero (by simpa [get_feature_category_count] using hne)
      have hpre : strHasPre (featurePreStr f) (featureCategoryKey f c) = true := by
        rw [strHasPre_iff]
        exact ⟨c, (featureCategoryKey_eq f c).symm⟩
      have hmem2 : featureCategoryKey f c ∈ prefixKeys db (featurePreStr f) := by
        simp only [prefixKeys]
        exact List.mem_filter.mpr ⟨hmem, hpre⟩
      have hle := le_sum_map_of_mem (fun k => get_int db k) hmem2
      simp only [get_feature_counts] at h0
      rw [h0] at hle
      exact hne (by simpa [get_feature_category_count] using Nat.le_zero.mp hle)
    have hfp : feature_probability db f c = some 0 := by
      simp [feature_probability, hfcc]
    rw [weighted_probability, hfp]
    simp [h0]

/-- Witness for C3: after training `cheap` once under `spam`, the smoothed
probability is (1*0.5 + 1*1)/(1+1) = 3/4; an unseen feature gets exactly
1/2. -/
theorem weighted_probability_spec_witness :
    weighted_probability (train false [] [("cheap".data)] [("spam".data)]) ("cheap".data)
        ("spam".data) 1 = some (3 / 4)
      ∧ weighted_probability [] ("cheap".data) ("spam".data) 1 = some (1 / 2) := by
  constructor
  · have hgfc : get_feature_counts (train false [] [("cheap".data)] [("spam".data)])
        ("cheap".data) = 1 := by decide
    have hfp : feature_probability (train false [] [("cheap".data)] [("spam".data)])
        ("cheap".data) ("spam".data) = some 1 := by
      have h1 : get_feature_category_count (train false [] [("cheap".data)] [("spam".data)])
          ("cheap".data) ("spam".data) = 1 := by decide
      have h2 : category_count (train false [] [("cheap".data)] [("spam".data)])
          ("spam".data) = 1 := by decide
      norm_num [feature_probability, h1, h2]
    have h := weighted_probability_spec.1 (train false [] [("cheap".data)] [("spam".data)])
      ("cheap".data) ("spam".data) 1 1 hfp (by rw [hgfc]; norm_num)
    rw [h, hgfc]
    norm_num
  · exact weighted_probability_spec.2 [] ("cheap".data) ("spam".data) (by decide)

/-- Claim C4 counterexample: in the raw store holding only the pair
`feature2category.f.c ↦ 1` — so FeatureCategoryCount(f, c) = 1 while
CategoryDocumentCount(c) = 0 — `feature_probability` raises
`ZeroDivisionError` (modelled `none`) rather than returning 0, so the
division is not guarded in every store state. -/
theorem feature_probability_cex :
    category_count [((featureCategoryKey ("f".data) ("c".data)), 1)] ("c".data) = 0
      ∧ feature_probability [((featureCategoryKey ("f".data) ("c".data)), 1)]
          ("f".data) ("c".data) = none := by
  decide

/-- Claim C4 amended: featureProbability returns 0 whenever
FeatureCategoryCount is 0 (in particular whenever the pair was never
trained, including when CategoryDocumentCount is 0), and equals FCC/CDC when
both counters are nonzero; when FCC ≠ 0 and CDC = 0 the division raises.  In
every store reachable from the empty store by completed train calls the
division is guarded — FCC(f,c) ≠ 0 implies CDC(c) ≠ 0 — provided the queried
category and the trained categories do not contain the `.` key delimiter
(colliding composite keys can otherwise defeat the guard). -/
theorem feature_probability_guarded :
    (∀ (db : Store) (f c : Str), get_feature_category_count db f c = 0 →
      feature_probability db f c = some 0) ∧
    (∀ (db : Store) (f c : Str), get_feature_category_count db f c ≠ 0 →
      category_count db c ≠ 0 →
      feature_probability db f c
        = some ((get_feature_category_count db f c : ℚ) / (category_count db c : ℚ))) ∧
    (∀ (calls : List (List Str × List Str)) (f c : Str), ('.' : Char) ∉ c →
      (∀ p ∈ calls, ∀ c' ∈ p.2, ('.' : Char) ∉ c') →
      get_feature_category_count (trainedStore calls) f c ≠ 0 →
      category_count (trainedStore calls) c ≠ 0) ∧
    (∀ (calls : List (List Str × List Str)) (f c : Str), ('.' : Char) ∉ c →
      (∀ p ∈ calls, ∀ c' ∈ p.2, ('.' : Char) ∉ c') →
      ∃ q, feature_probability (trainedStore calls) f c = some q) := by
  have part1 : ∀ (db : Store) (f c : Str), get_feature_category_count db f c = 0 →
      feature_probability db f c = some 0 := by
    intro db f c h
    simp [feature_probability, h]
  have part2 : ∀ (db : Store) (f c : Str), get_feature_category_count db f c ≠ 0 →
      category_count db c ≠ 0 →
      feature_probability db f c
        = some ((get_feature_category_count db f c : ℚ) / (category_count db c : ℚ)) := by
    intro db f c h1 h2
    simp [feature_probability, h1, h2]
  have part3 : ∀ (calls : List (List Str × List Str)) (f c : Str), ('.' : Char) ∉ c →
      (∀ p ∈ calls, ∀ c' ∈ p.2, ('.' : Char) ∉ c') →
      get_feature_category_count (trainedStore calls) f c ≠ 0 →
      category_count (trainedStore calls) c ≠ 0 := by
    intro calls f c hc hcs hne
    have hfcc : get_feature_category_count (trainedStore calls) f c
        = (calls.map fun p => trainDelta p.1 p.2 (featureCategoryKey f c)).sum := by
      simp only [get_feature_category_count]
      exact get_int_trainedStore calls (featureCategoryKey f c)
    have hsum : (calls.map fun p => trainDelta p.1 p.2 (featureCategoryKey f c)).sum ≠ 0 := by
      rw [← hfcc]
      exact hne
    have hex : ∃ p ∈ calls, trainDelta p.1 p.2 (featureCategoryKey f c) ≠ 0 := by
      by_contra hall
      push_neg at hall
      apply hsum
      rw [nat_sum_eq_zero_iff]
      intro x hx
      obtain ⟨p, hp, rfl⟩ := List.mem_map.mp hx
      exact hall p hp
    obtain ⟨p, hp, hdelta⟩ := hex
    have hex2 : ∃ c' ∈ p.2,
        ((p.1.map fun f' =>
            if featureCategoryKey f c = featureCategoryKey f' c' then 1 else 0).sum
          + (if featureCategoryKey f c = totalCountKey then 1 else 0)
          + (if featureCategoryKey f c = categoryKey c' then 1 else 0)) ≠ 0 := by
      by_contra hall
      push_neg at hall
      apply hdelta
      unfold trainDelta
      rw [nat_sum_eq_zero_iff]
      intro x hx
      obtain ⟨c', hc', rfl⟩ := List.mem_map.mp hx
      exact hall c' hc'
    obtain ⟨c', hc', hterm⟩ := hex2
    have hite1 : (if featureCategoryKey f c = totalCountKey then 1 else 0) = 0 :=
      if_neg fun e => totalCountKey_ne_featureCategoryKey f c e.symm
    have hite2 : (if featureCategoryKey f c = categoryKey c' then 1 else 0) = 0 :=
      if_neg fun e => categoryKey_ne_featureCategoryKey c' f c e.symm
    rw [hite1, hite2] at hterm
    have hex3 : ∃ f' ∈ p.1, featureCategoryKey f c = featureCategoryKey f' c' := by
      by_contra hall
      push_neg at hall
      apply hterm
      simp only [Nat.add_zero]
      rw [nat_sum_eq_zero_iff]
      intro x hx
      obtain ⟨f', hf', rfl⟩ := List.mem_map.mp hx
      simp [hall f' hf']
    obtain ⟨f', hf', hkey⟩ := hex3
    have hcc : c = c' := (featureCategoryKey_inj_right hc (hcs p hp c' hc') hkey).2
    subst hcc
    intro hcdc0
    rw [category_count_trainedStore, nat_sum_eq_zero_iff] at hcdc0
    have hz := hcdc0 (p.2.count c) (List.mem_map.mpr ⟨p, hp, rfl⟩)
    rw [List.count_eq_zero] at hz
    exact hz hc'
  refine ⟨part1, part2, part3, ?_⟩
  intro calls f c hc hcs
  by_cases h0 : get_feature_category_count (trainedStore calls) f c = 0
  · exact ⟨0, part1 _ _ _ h0⟩
  · exact ⟨_, part2 _ _ _ h0 (part3 calls f c hc hcs h0)⟩

/-- Witness for C4: an untrained pair yields some 0 on the empty store, and
after one delimiter-free training call the trained category's count is
nonzero (the guard invariant at a concrete reachable store). -/
theorem feature_probability_guarded_witness :
    feature_probability [] ("x".data) ("y".data) = some 0
      ∧ category_count (trainedStore [([("f".data)], [("c".data)])]) ("c".data) ≠ 0 := by
  constructor
  · exact feature_probability_guarded.1 [] ("x".data) ("y".data) (by decide)
  · exact feature_probability_guarded.2.2.1 [([("f".data)], [("c".data)])] ("f".data)
      ("c".data) (by decide) (by decide) (by decide)

/-- The loop of `classify` pairs each enumerated category with its weighted
document probability, in order, propagating the first raised error. -/
theorem classifyScores_forall (db : Store) (features : List Str) :
    ∀ (cats : List Str) (items : List (Str × ℚ)),
      classifyScores db features cats = some items →
      List.Forall₂ (fun c pr => pr.1 = c
          ∧ weighted_document_probability db features c = some pr.2) cats items
  | [], items, h => by
    simp only [classifyScores, Option.some_inj] at h
    rw [← h]
    exact List.Forall₂.nil
  | c :: cs, items, h => by
    simp only [classifyScores, Option.bind_eq_some, Option.map_eq_some'] at h
    obtain ⟨p, hw, rest, hcs, hitems⟩ := h
    rw [← hitems]
    exact List.Forall₂.cons ⟨rfl, hw⟩ (classifyScores_forall db features cs rest hcs)

/-- Claim C1: classify computes the weighted document probability of every
category in the enumeration, returns the (category, score) pairs sorted in
descending order of score, truncated to at most `limit` entries (default
limit 5); when no categories are known the result is the empty sequence. -/
theorem classify_spec (db : Store) (features : List Str) (limit : ℕ) :
    (classifyDefault db features = classify db features 5) ∧
    (iter_categories db = [] → classify db features limit = some []) ∧
    (∀ l, classify db features limit = some l →
      l.length ≤ limit ∧ List.Sorted scoreGE l ∧
      ∃ full, List.Sorted scoreGE full ∧ l = full.take limit ∧
        ∃ items, full.Perm items ∧
          List.Forall₂ (fun c pr => pr.1 = c
              ∧ weighted_document_probability db features c = some pr.2)
            (iter_categories db) items) := by
  refine ⟨rfl, ?_, ?_⟩
  · intro h
    simp [classify, h, classifyScores]
  · intro l hl
    obtain ⟨items, hitems, hl2⟩ : ∃ items,
        classifyScores db features (iter_categories db) = some items
          ∧ l = (List.insertionSort scoreGE items).take limit := by
      unfold classify at hl
      cases hcs : classifyScores db features (iter_categories db) with
      | none =>
        rw [hcs] at hl
        simp at hl
      | some items =>
        rw [hcs] at hl
        simp only [Option.map_some', Option.some_inj] at hl
        exact ⟨items, rfl, hl.symm⟩
    have hsorted : List.Sorted scoreGE (List.insertionSort scoreGE items) :=
      List.sorted_insertionSort scoreGE items
    have hperm : (List.insertionSort scoreGE items).Perm items :=
      List.perm_insertionSort scoreGE items
    have hforall := classifyScores_forall db features (iter_categories db) items hitems
    refine ⟨?_, ?_, List.insertionSort scoreGE items, hsorted, hl2, items, hperm, hforall⟩
    · rw [hl2, List.length_take]
      exact min_le_left _ _
    · rw [hl2]
      exact hsorted.sublist (List.take_sublist _ _)

/-- Witness for C1: after a single featureless training call on `spam`, the
one known category is returned with its score, and the stated shape
(sortedness, truncation, pairing) holds of that result. -/
theorem classify_spec_witness :
    (classify (train false [] [] [("spam".data)]) [] 5
        = some [(("spam".data), (1 : ℚ))])
      ∧ ([(("spam".data), (1 : ℚ))].length ≤ 5 ∧
          List.Sorted scoreGE [(("spam".data), (1 : ℚ))] ∧
          ∃ full, List.Sorted scoreGE full
            ∧ [(("spam".data), (1 : ℚ))] = full.take 5
            ∧ ∃ items, full.Perm items
              ∧ List.Forall₂ (fun c pr => pr.1 = c
                  ∧ weighted_document_probability (train false [] [] [("spam".data)]) [] c
                      = some pr.2)
                (iter_categories (train false [] [] [("spam".data)])) items) := by
  have hiter : iter_categories (train false [] [] [("spam".data)]) = [("spam".data)] := by
    decide
  have hwdp : weighted_document_probability (train false [] [] [("spam".data)]) []
      ("spam".data) = some 1 := by
    have htc : total_count (train false [] [] [("spam".data)]) = 1 := by decide
    have hcc : category_count (train false [] [] [("spam".data)]) ("spam".data) = 1 := by
      decide
    norm_num [weighted_document_probability, document_probability, featureProbs, htc, hcc]
  have hscores : classifyScores (train false [] [] [("spam".data)]) [] [("spam".data)]
      = some [(("spam".data), (1 : ℚ))] := by
    simp only [classifyScores]
    rw [hwdp]
    rfl
  have hcl : classify (train false [] [] [("spam".data)]) [] 5
      = some [(("spam".data), (1 : ℚ))] := by
    unfold classify
    rw [hiter, hscores]
    rfl
  exact ⟨hcl, (classify_spec (train false [] [] [("spam".data)]) [] 5).2.2
    [(("spam".data), (1 : ℚ))] hcl⟩

end NB
